import Mathlib

/-!
Verification of the markdown-editor core (line classifier, inline renderer,
structural parser `_draw`, canonicalizer `_sync`, undo/redo history,
`loadValue`, and the focus/blur state machine) against its natural-language
specification.  All definitions are shallow embeddings of the JavaScript
source; strings are modelled as Lean `String` (lists of characters), and the
regular expressions of the source are translated into explicit character
scans with the same matching semantics.
-/

namespace MdEditor

/-- The backtick character (U+0060). -/
def btk : Char := '\x60'

/-- Split a string at every newline character, JS `s.split('\n')`:
the empty string yields `[""]`. Auxiliary worker carrying the accumulated
characters of the current line (in reverse). -/
def splitLinesAux (acc : List Char) : List Char → List String
  | [] => [String.mk acc.reverse]
  | c :: cs =>
    if c = '\n' then String.mk acc.reverse :: splitLinesAux [] cs
    else splitLinesAux (c :: acc) cs

/-- JS `s.split('\n')`. -/
def splitLines (s : String) : List String := splitLinesAux [] s.data

/-- JS `parts.join('\n')`. -/
def joinLines : List String → String
  | [] => ""
  | [s] => s
  | s :: rest => s ++ "\n" ++ joinLines rest

/-- JS `String.prototype.trim()` (restricted to the whitespace characters of
`Char.isWhitespace`; all inputs in this development are ASCII). -/
def jsTrim (s : String) : String :=
  String.mk (((s.data.dropWhile Char.isWhitespace).reverse.dropWhile Char.isWhitespace).reverse)

/-- Length of the leading run of the character `c`. -/
def leadCount (c : Char) : List Char → Nat
  | [] => 0
  | x :: xs => if x = c then leadCount c xs + 1 else 0

/-! ## Block model and the structural parser / canonicalizer -/

/-- A block of the document: a text line (its raw markdown source,
`dataset.md` in the source) or a code block (`dataset.lang`, `dataset.code`). -/
inductive Block
  | textLine (md : String)
  | codeBlock (lang code : String)
deriving DecidableEq, Repr

/-- The fence-open regex `/^(`{3,}|~{3,})(.*)/` of `_draw`: a line starting
with three or more backticks or three or more tildes.  Returns the part of
the line after the (greedy) fence run — capture group 2 — or `none`. -/
def fenceOpenRest? (line : String) : Option String :=
  match line.data with
  | [] => none
  | c :: _ =>
    if (c = btk ∨ c = '~') ∧ 3 ≤ leadCount c line.data then
      some (String.mk (line.data.drop (leadCount c line.data)))
    else none

/-- The fence-close regex `/^(`{3,}|~{3,})\s*$/` of `_draw`: three or more
backticks or tildes followed by whitespace only. -/
def fenceClose (line : String) : Bool :=
  match line.data with
  | [] => false
  | c :: _ =>
    ((c = btk ∨ c = '~') && decide (3 ≤ leadCount c line.data))
      && (line.data.drop (leadCount c line.data)).all Char.isWhitespace

/-- State of the `_draw` scanning loop: blocks emitted so far, and — when
inside a fenced region — the language tag and the buffered code lines. -/
structure DrawSt where
  blocks : List Block
  fence : Option (String × List String)
deriving DecidableEq, Repr

/-- One iteration of the `_draw` while-loop over input lines. -/
def drawStep (st : DrawSt) (line : String) : DrawSt :=
  match st.fence with
  | some (lang, buf) =>
    if fenceClose line then
      ⟨st.blocks ++ [Block.codeBlock lang (joinLines buf)], none⟩
    else ⟨st.blocks, some (lang, buf ++ [line])⟩
  | none =>
    match fenceOpenRest? line with
    | some rest => ⟨st.blocks, some (jsTrim rest, [])⟩
    | none => ⟨st.blocks ++ [Block.textLine line], none⟩

/-- `_draw` on an already-split list of lines, including the flush of an
unterminated fence at end of input. -/
def drawLines (lines : List String) : List Block :=
  let fin := lines.foldl drawStep ⟨[], none⟩
  match fin.fence with
  | some (lang, buf) => fin.blocks ++ [Block.codeBlock lang (joinLines buf)]
  | none => fin.blocks

/-- The structural parser `_draw`: an empty markdown string yields a single
empty text line, otherwise the line scan above. -/
def draw (md : String) : List Block :=
  if md = "" then [Block.textLine ""]
  else drawLines (splitLines md)

/-- The lines contributed by one block in `_sync`: a text line contributes
its `dataset.md`; a code block contributes an opening triple-backtick fence
with its language, each line of `code.split('\n')`, and a closing fence. -/
def syncParts : Block → List String
  | .textLine md => [md]
  | .codeBlock lang code => ("```" ++ lang) :: (splitLines code ++ ["```"])

/-- The canonicalizer `_sync`: serialize the document back to the canonical
markdown string (`parts.join('\n')`). -/
def sync (d : List Block) : String := joinLines (d.flatMap syncParts)

example : draw "```py\nline1\nline2" = [Block.codeBlock "py" "line1\nline2"] := by decide
example : sync [Block.textLine "a", Block.codeBlock "go" "x\ny"] = "a\n```go\nx\ny\n```" := by decide
example : sync (draw (sync [Block.textLine "```"])) ≠ sync [Block.textLine "```"] := by decide
example : draw "a\n```js\ncode\n```\nb"
    = [Block.textLine "a", Block.codeBlock "js" "code", Block.textLine "b"] := by decide

/-! ## Lemmas about line splitting and joining -/

theorem splitLinesAux_ne_nil (acc : List Char) (l : List Char) :
    splitLinesAux acc l ≠ [] := by
  induction l generalizing acc with
  | nil => simp [splitLinesAux]
  | cons c cs ih =>
    simp only [splitLinesAux]
    split
    · simp
    · exact ih _

theorem joinLines_cons (a : String) (l : List String) (h : l ≠ []) :
    joinLines (a :: l) = a ++ "\n" ++ joinLines l := by
  cases l with
  | nil => exact absurd rfl h
  | cons b r => rfl

theorem mk_append (a b : List Char) : String.mk a ++ String.mk b = String.mk (a ++ b) := rfl

theorem splitLinesAux_cons_newline (acc : List Char) (cs : List Char) :
    splitLinesAux acc ('\n' :: cs) = String.mk acc.reverse :: splitLinesAux [] cs := by
  simp [splitLinesAux]

theorem splitLinesAux_cons_other (acc : List Char) (c : Char) (cs : List Char)
    (h : c ≠ '\n') : splitLinesAux acc (c :: cs) = splitLinesAux (c :: acc) cs := by
  simp [splitLinesAux, h]

theorem joinLines_splitLinesAux (l acc : List Char) :
    joinLines (splitLinesAux acc l) = String.mk (acc.reverse ++ l) := by
  induction l generalizing acc with
  | nil => simp [splitLinesAux, joinLines]
  | cons c cs ih =>
    by_cases hc : c = '\n'
    · subst hc
      rw [splitLinesAux_cons_newline, joinLines_cons _ _ (splitLinesAux_ne_nil _ _), ih]
      show String.mk _ ++ String.mk ['\n'] ++ String.mk _ = _
      rw [mk_append, mk_append]
      simp
    · rw [splitLinesAux_cons_other _ _ _ hc, ih]
      simp

/-- `join ∘ split` is the identity: splitting on newlines and re-joining
reconstructs the original string. -/
theorem joinLines_splitLines (s : String) : joinLines (splitLines s) = s := by
  rw [splitLines, joinLines_splitLinesAux]
  cases s
  rfl

theorem splitLinesAux_append (l₁ : List Char) (acc l₂ : List Char) :
    splitLinesAux acc (l₁ ++ '\n' :: l₂)
      = splitLinesAux acc l₁ ++ splitLinesAux [] l₂ := by
  induction l₁ generalizing acc with
  | nil =>
    rw [List.nil_append, splitLinesAux_cons_newline]
    rfl
  | cons c cs ih =>
    by_cases hc : c = '\n'
    · subst hc
      rw [List.cons_append, splitLinesAux_cons_newline, splitLinesAux_cons_newline, ih]
      rfl
    · rw [List.cons_append, splitLinesAux_cons_other _ _ _ hc,
        splitLinesAux_cons_other _ _ _ hc, ih]

theorem splitLines_append_newline (s t : String) :
    splitLines (s ++ "\n" ++ t) = splitLines s ++ splitLines t := by
  have hdata : (s ++ "\n" ++ t).data = s.data ++ '\n' :: t.data := by
    rw [String.data_append, String.data_append]
    simp
  rw [splitLines, hdata]
  exact splitLinesAux_append _ _ _

theorem splitLines_joinLines_flat (l : List String) (h : l ≠ []) :
    splitLines (joinLines l) = l.flatMap splitLines := by
  induction l with
  | nil => exact absurd rfl h
  | cons a r ih =>
    cases r with
    | nil => simp [joinLines, List.flatMap]
    | cons b r' =>
      rw [joinLines_cons _ _ (by simp), splitLines_append_newline, ih (by simp)]
      simp [List.flatMap]

theorem splitLinesAux_single (l acc : List Char) (h : '\n' ∉ l) :
    splitLinesAux acc l = [String.mk (acc.reverse ++ l)] := by
  induction l generalizing acc with
  | nil => simp [splitLinesAux]
  | cons c cs ih =>
    simp only [splitLinesAux]
    rw [if_neg (by intro hc; exact h (hc ▸ List.mem_cons_self c cs)),
      ih _ (fun hm => h (List.mem_cons_of_mem _ hm))]
    simp

/-- A newline-free string splits into just itself. -/
theorem splitLines_single (s : String) (h : '\n' ∉ s.data) : splitLines s = [s] := by
  rw [splitLines, splitLinesAux_single _ _ h]
  cases s
  rfl

theorem mem_splitLinesAux_no_newline (l acc : List Char) (hacc : '\n' ∉ acc)
    (x : String) (hx : x ∈ splitLinesAux acc l) : '\n' ∉ x.data := by
  induction l generalizing acc with
  | nil =>
    simp only [splitLinesAux, List.mem_singleton] at hx
    subst hx
    simpa using fun hm => hacc (List.mem_reverse.mp hm)
  | cons c cs ih =>
    simp only [splitLinesAux] at hx
    by_cases hc : c = '\n'
    · subst hc
      rw [if_pos rfl] at hx
      rcases List.mem_cons.mp hx with h1 | h2
      · subst h1
        simpa using fun hm => hacc (List.mem_reverse.mp hm)
      · exact ih _ (by simp) h2
    · rw [if_neg hc] at hx
      exact ih _ (by simpa using fun h => hacc (Or.resolve_left h (fun hh => hc hh.symm))) hx

/-- Every element produced by `splitLines` is newline-free. -/
theorem mem_splitLines_no_newline (s x : String) (hx : x ∈ splitLines s) :
    '\n' ∉ x.data :=
  mem_splitLinesAux_no_newline _ _ (by simp) _ hx

/-- Splitting the join of a non-empty list of newline-free lines
recovers the lines. -/
theorem splitLines_joinLines_id (l : List String) (h : l ≠ [])
    (hnl : ∀ x ∈ l, '\n' ∉ x.data) : splitLines (joinLines l) = l := by
  rw [splitLines_joinLines_flat l h]
  have : ∀ x ∈ l, splitLines x = [x] := fun x hx => splitLines_single x (hnl x hx)
  induction l with
  | nil => rfl
  | cons a r ih =>
    simp only [List.flatMap_cons, this a (by simp)]
    rcases Decidable.em (r = []) with hr | hr
    · subst hr; simp
    · rw [ih hr (fun x hx => hnl x (List.mem_cons_of_mem _ hx))
        (fun x hx => this x (List.mem_cons_of_mem _ hx))]
      rfl

/-! ## Segment decomposition of canonical input

A canonical input, viewed as a list of lines, decomposes into segments:
plain text lines (not matching the fence-open pattern) and fenced groups
(an opening fence line, interior lines none of which match the fence-close
pattern, and a closing fence line).  `drawLines` maps each segment to the
corresponding block. -/

/-- A segment of canonical input: one plain text line, or a fenced group
`openLine / interior lines / closeLine`. -/
inductive Seg
  | stext (l : String)
  | sfence (op : String) (interior : List String) (cl : String)
deriving DecidableEq, Repr

/-- The input lines of a segment. -/
def segLines : Seg → List String
  | .stext l => [l]
  | .sfence op interior cl => op :: (interior ++ [cl])

/-- The input lines of a segment list. -/
def segsLines (segs : List Seg) : List String := segs.flatMap segLines

/-- Well-formedness of a segment with respect to the patterns the code
actually uses: a text line must not match fence-open; a fenced group needs a
fence-open first line, interior lines that do not match fence-close
(of either fence character), and a fence-close last line. -/
def segWf : Seg → Bool
  | .stext l => (fenceOpenRest? l).isNone
  | .sfence op interior cl =>
    (fenceOpenRest? op).isSome && (interior.all fun x => !fenceClose x) && fenceClose cl

/-- The block a well-formed segment parses to. -/
def segBlock : Seg → Block
  | .stext l => .textLine l
  | .sfence op interior _ =>
    .codeBlock (jsTrim ((fenceOpenRest? op).getD "")) (joinLines interior)

/-- Number of code blocks in a parsed document. -/
def numCodeBlocks (d : List Block) : Nat :=
  d.countP fun b => match b with | .codeBlock _ _ => true | _ => false

/-- Number of fenced groups in a segment decomposition. -/
def numFenceSegs (segs : List Seg) : Nat :=
  segs.countP fun sg => match sg with | .sfence _ _ _ => true | _ => false

theorem foldl_drawStep_buffer (interior : List String)
    (hint : ∀ x ∈ interior, fenceClose x = false) :
    ∀ (bs : List Block) (lang : String) (buf rest : List String),
      (interior ++ rest).foldl drawStep ⟨bs, some (lang, buf)⟩
        = rest.foldl drawStep ⟨bs, some (lang, buf ++ interior)⟩ := by
  induction interior with
  | nil => intro bs lang buf rest; simp
  | cons x xs ih =>
    intro bs lang buf rest
    have hx : fenceClose x = false := hint x (by simp)
    have hxs : ∀ y ∈ xs, fenceClose y = false := fun y hy => hint y (by simp [hy])
    rw [List.cons_append, List.foldl_cons]
    show (xs ++ rest).foldl drawStep (drawStep ⟨bs, some (lang, buf)⟩ x) = _
    rw [show drawStep ⟨bs, some (lang, buf)⟩ x = ⟨bs, some (lang, buf ++ [x])⟩ by
      simp [drawStep, hx]]
    rw [ih hxs bs lang (buf ++ [x]) rest]
    simp

theorem foldl_drawStep_seg (sg : Seg) (h : segWf sg = true)
    (bs : List Block) (rest : List String) :
    (segLines sg ++ rest).foldl drawStep ⟨bs, none⟩
      = rest.foldl drawStep ⟨bs ++ [segBlock sg], none⟩ := by
  cases sg with
  | stext l =>
    have hl : fenceOpenRest? l = none := by
      simpa [segWf, Option.isNone_iff_eq_none] using h
    rw [segLines, List.singleton_append, List.foldl_cons]
    show rest.foldl drawStep (drawStep ⟨bs, none⟩ l) = _
    simp [drawStep, hl, segBlock]
  | sfence op interior cl =>
    simp only [segWf, Bool.and_eq_true, Option.isSome_iff_exists] at h
    obtain ⟨⟨⟨r, hr⟩, hint⟩, hcl⟩ := h
    have hint' : ∀ x ∈ interior, fenceClose x = false := by
      intro x hx
      have := List.all_eq_true.mp hint x hx
      simpa using this
    rw [segLines, List.cons_append, List.foldl_cons]
    show ((interior ++ [cl]) ++ rest).foldl drawStep (drawStep ⟨bs, none⟩ op) = _
    rw [show drawStep ⟨bs, none⟩ op = ⟨bs, some (jsTrim r, [])⟩ by simp [drawStep, hr]]
    rw [List.append_assoc, List.singleton_append,
      foldl_drawStep_buffer interior hint' bs (jsTrim r) [] (cl :: rest),
      List.nil_append, List.foldl_cons]
    show rest.foldl drawStep (drawStep ⟨bs, some (jsTrim r, interior)⟩ cl) = _
    rw [show drawStep ⟨bs, some (jsTrim r, interior)⟩ cl
        = ⟨bs ++ [Block.codeBlock (jsTrim r) (joinLines interior)], none⟩ by
      simp [drawStep, hcl]]
    rw [show segBlock (Seg.sfence op interior cl)
        = Block.codeBlock (jsTrim r) (joinLines interior) by simp [segBlock, hr]]

theorem foldl_drawStep_segs (segs : List Seg) (h : ∀ sg ∈ segs, segWf sg = true)
    (bs : List Block) :
    (segsLines segs).foldl drawStep ⟨bs, none⟩ = ⟨bs ++ segs.map segBlock, none⟩ := by
  induction segs generalizing bs with
  | nil => simp [segsLines]
  | cons sg rest ih =>
    rw [segsLines, List.flatMap_cons, foldl_drawStep_seg sg (h sg (by simp)) bs]
    have hrest := ih (fun x hx => h x (by simp [hx])) (bs ++ [segBlock sg])
    rw [segsLines] at hrest
    rw [hrest]
    simp

/-- `drawLines` on a well-formed segment decomposition produces exactly the
blocks of the segments. -/
theorem drawLines_segs (segs : List Seg) (h : ∀ sg ∈ segs, segWf sg = true) :
    drawLines (segsLines segs) = segs.map segBlock := by
  rw [drawLines, foldl_drawStep_segs segs h []]
  simp

theorem segLines_ne_nil (sg : Seg) : segLines sg ≠ [] := by
  cases sg <;> simp [segLines]

theorem segsLines_ne_nil (segs : List Seg) (h : segs ≠ []) : segsLines segs ≠ [] := by
  cases segs with
  | nil => exact absurd rfl h
  | cons sg rest =>
    rw [segsLines, List.flatMap_cons]
    intro hc
    exact segLines_ne_nil sg (List.append_eq_nil.mp hc).1

/-! ## Round-trip: documents whose serialization parses back -/

/-- A block whose `_sync` serialization survives `_draw` unchanged: a text
line none of whose (newline-split) lines looks like a fence opener, and a
code block whose language tag is newline-free, trim-stable and re-parsed
exactly from its emitted fence line, and whose code has no line matching the
fence-close pattern. -/
def GoodBlock : Block → Bool
  | .textLine md => (splitLines md).all fun l => (fenceOpenRest? l).isNone
  | .codeBlock lang code =>
    decide ('\n' ∉ lang.data) && decide (fenceOpenRest? ("```" ++ lang) = some lang)
      && decide (jsTrim lang = lang) && (splitLines code).all fun l => !fenceClose l

/-- The segment decomposition of the `_sync` serialization of a document. -/
def docSegs : List Block → List Seg
  | [] => []
  | .textLine md :: r => (splitLines md).map Seg.stext ++ docSegs r
  | .codeBlock lang code :: r =>
    Seg.sfence ("```" ++ lang) (splitLines code) "```" :: docSegs r

theorem syncParts_ne_nil (b : Block) : syncParts b ≠ [] := by
  cases b <;> simp [syncParts]

theorem flatMap_syncParts_ne_nil (d : List Block) (h : d ≠ []) :
    d.flatMap syncParts ≠ [] := by
  cases d with
  | nil => exact absurd rfl h
  | cons b r =>
    rw [List.flatMap_cons]
    intro hc
    exact syncParts_ne_nil b (List.append_eq_nil.mp hc).1

theorem splitLines_ne_nil (s : String) : splitLines s ≠ [] :=
  splitLinesAux_ne_nil _ _

theorem docSegs_ne_nil (d : List Block) (h : d ≠ []) : docSegs d ≠ [] := by
  cases d with
  | nil => exact absurd rfl h
  | cons b r =>
    cases b with
    | textLine md =>
      rw [docSegs]
      intro hc
      exact splitLines_ne_nil md (List.map_eq_nil_iff.mp (List.append_eq_nil.mp hc).1)
    | codeBlock lang code => simp [docSegs]

theorem flatMap_splitLines_id (l : List String) (h : ∀ x ∈ l, '\n' ∉ x.data) :
    l.flatMap splitLines = l := by
  induction l with
  | nil => rfl
  | cons a r ih =>
    rw [List.flatMap_cons, splitLines_single a (h a (by simp)),
      ih (fun x hx => h x (by simp [hx]))]
    rfl

theorem no_newline_fence_open_line (lang : String) (h : '\n' ∉ lang.data) :
    '\n' ∉ ("```" ++ lang).data := by
  rw [String.data_append]
  intro hc
  rcases List.mem_append.mp hc with h1 | h2
  · simp at h1
  · exact h h2

theorem splitLines_fence : splitLines "```" = ["```"] := by decide

/-- The lines of the segment decomposition are exactly the newline-split
serialized parts of the document. -/
theorem docSegs_lines (d : List Block) (h : ∀ b ∈ d, GoodBlock b = true) :
    segsLines (docSegs d) = (d.flatMap syncParts).flatMap splitLines := by
  induction d with
  | nil => rfl
  | cons b r ih =>
    have hr := ih (fun x hx => h x (by simp [hx]))
    have hb := h b (by simp)
    rw [segsLines] at hr
    cases b with
    | textLine md =>
      simp only [docSegs, segsLines, List.flatMap_cons, List.flatMap_append,
        syncParts, List.flatMap_map, segLines]
      rw [hr]
      simp
    | codeBlock lang code =>
      simp only [GoodBlock, Bool.and_eq_true, decide_eq_true_eq] at hb
      obtain ⟨⟨⟨hnl, _⟩, _⟩, _⟩ := hb
      simp only [docSegs, segsLines, List.flatMap_cons, List.flatMap_append,
        syncParts, segLines]
      rw [splitLines_single _ (no_newline_fence_open_line lang hnl),
        flatMap_splitLines_id _ (fun x hx => mem_splitLines_no_newline code x hx),
        splitLines_fence, hr]
      simp

/-- The segment decomposition of a good document is well-formed. -/
theorem docSegs_wf (d : List Block) (h : ∀ b ∈ d, GoodBlock b = true) :
    ∀ sg ∈ docSegs d, segWf sg = true := by
  induction d with
  | nil => simp [docSegs]
  | cons b r ih =>
    have hr := ih (fun x hx => h x (by simp [hx]))
    have hb := h b (by simp)
    cases b with
    | textLine md =>
      rw [docSegs]
      intro sg hsg
      rcases List.mem_append.mp hsg with h1 | h2
      · obtain ⟨l, hl, rfl⟩ := List.mem_map.mp h1
        have := List.all_eq_true.mp hb l hl
        simpa [segWf] using this
      · exact hr sg h2
    | codeBlock lang code =>
      simp only [GoodBlock, Bool.and_eq_true, decide_eq_true_eq] at hb
      obtain ⟨⟨⟨_, hopen⟩, _⟩, hcode⟩ := hb
      rw [docSegs]
      intro sg hsg
      rcases List.mem_cons.mp hsg with h1 | h2
      · subst h1
        simp only [segWf, Bool.and_eq_true]
        refine ⟨⟨?_, ?_⟩, by decide⟩
        · rw [hopen]; rfl
        · exact hcode
      · exact hr sg h2

/-- The block a good code block's segment parses back to is the block itself. -/
theorem segBlock_docSeg_code (lang code : String)
    (h : GoodBlock (Block.codeBlock lang code) = true) :
    segBlock (Seg.sfence ("```" ++ lang) (splitLines code) "```")
      = Block.codeBlock lang code := by
  simp only [GoodBlock, Bool.and_eq_true, decide_eq_true_eq] at h
  obtain ⟨⟨⟨_, hopen⟩, htrim⟩, _⟩ := h
  rw [segBlock, hopen, Option.getD_some, htrim, joinLines_splitLines]

theorem strAppend_assoc (a b c : String) : a ++ b ++ c = a ++ (b ++ c) := by
  apply String.ext
  simp [String.data_append]

theorem joinLines_append (a b : List String) (ha : a ≠ []) (hb : b ≠ []) :
    joinLines (a ++ b) = joinLines a ++ "\n" ++ joinLines b := by
  induction a with
  | nil => exact absurd rfl ha
  | cons x r ih =>
    cases r with
    | nil =>
      rw [List.singleton_append, joinLines_cons x b hb]
      rfl
    | cons y r' =>
      rw [List.cons_append, joinLines_cons _ _ (by simp),
        joinLines_cons _ _ (by simp), ih (by simp),
        strAppend_assoc (x ++ "\n"), strAppend_assoc (x ++ "\n")]

theorem joinLines_append_congr_right (P B C : List String)
    (hBC : joinLines B = joinLines C) (hiff : B = [] ↔ C = []) :
    joinLines (P ++ B) = joinLines (P ++ C) := by
  by_cases hB : B = []
  · rw [hB, hiff.mp hB]
  · have hC : C ≠ [] := fun hc => hB (hiff.mpr hc)
    by_cases hP : P = []
    · rw [hP, List.nil_append, List.nil_append]; exact hBC
    · rw [joinLines_append P B hP hB, joinLines_append P C hP hC, hBC]

theorem flatMap_syncParts_stext (A : List String) :
    (A.map fun l => segBlock (Seg.stext l)).flatMap syncParts = A := by
  induction A with
  | nil => rfl
  | cons x r ih =>
    simp only [segBlock] at ih ⊢
    simp [syncParts, ih]

/-- Serializing the parsed-back blocks of a good document reproduces the
serialization of the document. -/
theorem sync_map_segBlock_docSegs (d : List Block) (h : ∀ b ∈ d, GoodBlock b = true) :
    sync ((docSegs d).map segBlock) = sync d := by
  induction d with
  | nil => rfl
  | cons b r ih =>
    have hr := ih (fun x hx => h x (by simp [hx]))
    have hb := h b (by simp)
    have hBC : ((docSegs r).map segBlock).flatMap syncParts = []
        ↔ r.flatMap syncParts = [] := by
      constructor
      · intro hc
        by_contra hrne
        have hr' : r ≠ [] := fun hh => hrne (by rw [hh]; rfl)
        exact flatMap_syncParts_ne_nil _
          (fun hh => docSegs_ne_nil r hr' (List.map_eq_nil_iff.mp hh)) hc
      · intro hc
        have : r = [] := by
          by_contra hrne
          exact flatMap_syncParts_ne_nil r hrne hc
        rw [this]
        rfl
    have hsyncBC : joinLines (((docSegs r).map segBlock).flatMap syncParts)
        = joinLines (r.flatMap syncParts) := hr
    cases b with
    | textLine md =>
      show joinLines ((((splitLines md).map Seg.stext ++ docSegs r).map segBlock).flatMap syncParts)
        = joinLines ((Block.textLine md :: r).flatMap syncParts)
      rw [List.map_append, List.flatMap_append, List.map_map]
      have hA : ((splitLines md).map (segBlock ∘ Seg.stext)).flatMap syncParts
          = splitLines md := flatMap_syncParts_stext (splitLines md)
      rw [hA, List.flatMap_cons]
      show joinLines (splitLines md ++ _) = joinLines ([md] ++ _)
      have hmd : joinLines (splitLines md) = joinLines [md] := by
        rw [joinLines_splitLines]
        rfl
      by_cases hB : ((docSegs r).map segBlock).flatMap syncParts = []
      · rw [hB, hBC.mp hB, List.append_nil, List.append_nil, hmd]
      · have hC : r.flatMap syncParts ≠ [] := fun hc => hB (hBC.mpr hc)
        rw [joinLines_append _ _ (splitLines_ne_nil md) hB,
          joinLines_append _ _ (by simp) hC, hmd, hsyncBC]
    | codeBlock lang code =>
      show joinLines (((Seg.sfence ("```" ++ lang) (splitLines code) "```" :: docSegs r).map segBlock).flatMap syncParts)
        = joinLines ((Block.codeBlock lang code :: r).flatMap syncParts)
      rw [List.map_cons, List.flatMap_cons, List.flatMap_cons,
        segBlock_docSeg_code lang code hb]
      exact joinLines_append_congr_right _ _ _ hsyncBC hBC

/-! ## Claims C1, C2 and C7: parser / canonicalizer -/

/-- C1, counterexample: the round-trip claim fails as stated, universally
over all Documents.  For the document consisting of the single text line
whose raw text is a bare triple backtick, canonicalizing gives a string that
`_draw` parses as an (empty, unterminated) code block, which canonicalizes
to a different string. -/
theorem C1_counterexample :
    sync (draw (sync [Block.textLine "```"])) ≠ sync [Block.textLine "```"] := by decide

/-- C1 (amended): for every document in which no text line contains a line
matching the fence-open pattern, and every code block has a newline-free,
trim-stable language tag that parses back from its fence line and code with
no line matching the fence-close pattern, parsing the canonical string
produced by `_sync` and canonicalizing again yields the identical string. -/
theorem C1_roundtrip_amended (d : List Block) (h : ∀ b ∈ d, GoodBlock b = true) :
    sync (draw (sync d)) = sync d := by
  by_cases hd : d = []
  · subst hd
    decide
  · by_cases hs : sync d = ""
    · rw [hs]
      have h0 : sync (draw "") = "" := by decide
      rw [h0]
    · have hdflat : d.flatMap syncParts ≠ [] := flatMap_syncParts_ne_nil d hd
      have hlines : splitLines (sync d) = segsLines (docSegs d) := by
        rw [show sync d = joinLines (d.flatMap syncParts) from rfl,
          splitLines_joinLines_flat _ hdflat, ← docSegs_lines d h]
      rw [draw, if_neg hs, hlines, drawLines_segs _ (docSegs_wf d h)]
      exact sync_map_segBlock_docSegs d h

/-- Witness for C1 (amended) at a concrete document containing text lines
(plain, empty, emphasized) and a code block. -/
theorem C1_roundtrip_amended_witness :
    (∀ b ∈ [Block.textLine "hello", Block.codeBlock "py" "x = 1\ny = 2",
        Block.textLine "", Block.textLine "*a*"], GoodBlock b = true) ∧
    sync (draw (sync [Block.textLine "hello", Block.codeBlock "py" "x = 1\ny = 2",
        Block.textLine "", Block.textLine "*a*"]))
      = sync [Block.textLine "hello", Block.codeBlock "py" "x = 1\ny = 2",
        Block.textLine "", Block.textLine "*a*"] :=
  ⟨by decide, C1_roundtrip_amended _ (by decide)⟩

/-- Well-formedness of a segment under the SPEC'S closing rule (modelled
from the spec's words, for comparison with `segWf`): "a fence is closed only
by a line of three-or-more of the same fence character ... as the opening
fence, optionally followed by whitespace only" — so an interior line is
allowed whenever it is not a same-character close, and the close line must
use the same fence character as the opener. -/
def specSegWf : Seg → Bool
  | .stext l => (fenceOpenRest? l).isNone
  | .sfence op interior cl =>
    (fenceOpenRest? op).isSome &&
      (match op.data.head? with
       | some c =>
          (interior.all fun x => !(fenceClose x && x.data.head? == some c))
            && (fenceClose cl && cl.data.head? == some c)
       | none => false)

/-- C2, counterexample: the parser's closing rule does NOT require the same
fence character as the opener.  The input below is, per the spec's rule, ONE
matched fence pair (backtick fence, with the tilde line an interior code
line), so the claim predicts one CodeBlock with code "a\n~~~\nb"; the code
instead closes the fence at the tilde line and produces TWO CodeBlocks. -/
theorem C2_counterexample :
    specSegWf (Seg.sfence "```" ["a", "~~~", "b"] "```") = true ∧
    joinLines (segsLines [Seg.sfence "```" ["a", "~~~", "b"] "```"])
      = "```\na\n~~~\nb\n```" ∧
    draw "```\na\n~~~\nb\n```"
      ≠ [Block.codeBlock "" (joinLines ["a", "~~~", "b"])] ∧
    numCodeBlocks (draw "```\na\n~~~\nb\n```") = 2 := by decide

/-- C2 (amended): a fence is closed by any line of three-or-more backticks
or three-or-more tildes followed by optional whitespace, regardless of the
opening fence's character.  For canonical input (with newline-free lines)
decomposing into well-formed segments with N fenced groups, `_draw` yields
exactly the blocks of the segments: one CodeBlock per fenced group, with
code the interior lines joined by newlines and language the opening fence's
trailing token trimmed — in particular exactly N CodeBlocks. -/
theorem C2_fence_balance_amended (segs : List Seg) (hne : segs ≠ [])
    (hwf : ∀ sg ∈ segs, segWf sg = true)
    (hnl : ∀ x ∈ segsLines segs, '\n' ∉ x.data) :
    draw (joinLines (segsLines segs)) = segs.map segBlock ∧
      numCodeBlocks (draw (joinLines (segsLines segs))) = numFenceSegs segs := by
  have hLne : segsLines segs ≠ [] := segsLines_ne_nil segs hne
  have hsplit : splitLines (joinLines (segsLines segs)) = segsLines segs :=
    splitLines_joinLines_id _ hLne hnl
  have hmain : draw (joinLines (segsLines segs)) = segs.map segBlock := by
    by_cases hj : joinLines (segsLines segs) = ""
    · have hL : segsLines segs = [""] := by
        rw [← hsplit, hj]
        decide
      cases segs with
      | nil => exact absurd rfl hne
      | cons sg rest =>
        cases sg with
        | stext l =>
          rw [segsLines, List.flatMap_cons, segLines, List.singleton_append] at hL
          have hl1 := (List.cons.inj hL).1
          have hl2 := (List.cons.inj hL).2
          have hrest : rest = [] := by
            by_contra hrne
            exact segsLines_ne_nil rest hrne hl2
          rw [hl1, hrest]
          decide
        | sfence op interior cl =>
          rw [segsLines, List.flatMap_cons, segLines] at hL
          simp at hL
    · rw [draw, if_neg hj, hsplit, drawLines_segs segs hwf]
  refine ⟨hmain, ?_⟩
  rw [hmain, numCodeBlocks, numFenceSegs, List.countP_map]
  apply List.countP_congr
  intro sg _
  cases sg <;> rfl

/-- Witness for C2 (amended) at a concrete input with two fenced groups
(one backtick-opened, one tilde-opened) and surrounding text lines. -/
theorem C2_fence_balance_amended_witness :
    ([Seg.stext "a", Seg.sfence "```py" ["x = 1", "y"] "```",
        Seg.stext "b", Seg.sfence "~~~" ["z"] "````"] ≠ [] ∧
      (∀ sg ∈ [Seg.stext "a", Seg.sfence "```py" ["x = 1", "y"] "```",
        Seg.stext "b", Seg.sfence "~~~" ["z"] "````"], segWf sg = true)) ∧
    draw (joinLines (segsLines [Seg.stext "a", Seg.sfence "```py" ["x = 1", "y"] "```",
        Seg.stext "b", Seg.sfence "~~~" ["z"] "````"]))
      = [Block.textLine "a", Block.codeBlock "py" "x = 1\ny",
          Block.textLine "b", Block.codeBlock "" "z"] ∧
    numCodeBlocks (draw (joinLines (segsLines [Seg.stext "a",
        Seg.sfence "```py" ["x = 1", "y"] "```",
        Seg.stext "b", Seg.sfence "~~~" ["z"] "````"]))) = 2 := by
  refine ⟨⟨by decide, by decide⟩, ?_, ?_⟩
  · rw [(C2_fence_balance_amended _ (by decide) (by decide) (by decide)).1]
    decide
  · rw [(C2_fence_balance_amended _ (by decide) (by decide) (by decide)).2]
    decide

/-- C7: an unterminated fence consumes all remaining input as code — the
input "```py\nline1\nline2" (no closing fence) parses to exactly one
CodeBlock with language "py" and code "line1\nline2". -/
theorem C7_unterminated_fence :
    draw "```py\nline1\nline2" = [Block.codeBlock "py" "line1\nline2"] := by decide

/-! ## Claim C9: the line classifier `lineType` -/

/-- JS `p.test(s)` for an anchored literal-prefix regex: `s` starts with the
literal `p`. -/
def startsWithLit (p s : String) : Bool := p.data.isPrefixOf s.data

/-- A run of three or more `c` followed by whitespace only (one alternative
of the `hr` regex `/^(---+|\*\*\*+)\s*$/`). -/
def runThenWsPat (c : Char) (s : String) : Bool :=
  decide (3 ≤ leadCount c s.data)
    && (s.data.drop (leadCount c s.data)).all Char.isWhitespace

/-- `/^(---+|\*\*\*+)\s*$/`. -/
def hrPat (s : String) : Bool := runThenWsPat '-' s || runThenWsPat '*' s

/-- `/^> ?/` — matches exactly when the line starts with `>`. -/
def bqPat (s : String) : Bool := s.data.head? == some '>'

/-- `/^[-*+] /`. -/
def ulPat (s : String) : Bool :=
  match s.data with
  | c :: d :: _ => ((c == '-') || (c == '*') || (c == '+')) && (d == ' ')
  | _ => false

/-- `/^\d+\. /`. -/
def olPat (s : String) : Bool :=
  let ds := s.data.takeWhile Char.isDigit
  !ds.isEmpty && ['.', ' '].isPrefixOf (s.data.drop ds.length)

/-- `text.trim() === ''`. -/
def emptyPat (s : String) : Bool := jsTrim s == ""

/-- The classifier `lineType` of the source, returning the source's string
codes. -/
def lineType (text : String) : String :=
  if startsWithLit "###### " text then "h6"
  else if startsWithLit "##### " text then "h5"
  else if startsWithLit "#### " text then "h4"
  else if startsWithLit "### " text then "h3"
  else if startsWithLit "## " text then "h2"
  else if startsWithLit "# " text then "h1"
  else if hrPat text then "hr"
  else if bqPat text then "bq"
  else if ulPat text then "ul"
  else if olPat text then "ol"
  else if emptyPat text then "empty"
  else "p"

/-- The LineKind enumeration of the spec's data model. -/
inductive LineKind
  | h1 | h2 | h3 | h4 | h5 | h6 | hr | bq | ul | ol | empty | p
deriving DecidableEq, Repr

/-- The source's string code of each LineKind. -/
def kindCode : LineKind → String
  | .h1 => "h1" | .h2 => "h2" | .h3 => "h3" | .h4 => "h4" | .h5 => "h5"
  | .h6 => "h6" | .hr => "hr" | .bq => "bq" | .ul => "ul" | .ol => "ol"
  | .empty => "empty" | .p => "p"

/-- First matching pattern of an ordered precedence list, defaulting to
Paragraph — the classification semantics as the spec words it. -/
def firstKind : List ((String → Bool) × LineKind) → String → LineKind
  | [], _ => .p
  | pk :: rest, s => if pk.1 s then pk.2 else firstKind rest s

/-- The spec's ordered pattern precedence: headings longest-#-prefix first
(h6 down to h1), then horizontal rule, blockquote, bullet item, numbered
item, empty; else paragraph. -/
def specKindTests : List ((String → Bool) × LineKind) :=
  [(startsWithLit "###### ", .h6), (startsWithLit "##### ", .h5),
   (startsWithLit "#### ", .h4), (startsWithLit "### ", .h3),
   (startsWithLit "## ", .h2), (startsWithLit "# ", .h1),
   (hrPat, .hr), (bqPat, .bq), (ulPat, .ul), (olPat, .ol), (emptyPat, .empty)]

/-- Classification following the spec's precedence wording. -/
def specClassify (s : String) : LineKind := firstKind specKindTests s

/-- C9: the Classifier is a total pure function: for every input string,
`lineType` returns exactly the code of the single LineKind determined by the
spec's fixed precedence order (headings h6 down to h1, then rule,
blockquote, bullet, numbered, empty, defaulting to Paragraph); being a total
Lean function, it cannot throw. -/
theorem C9_classifier_precedence (s : String) :
    lineType s = kindCode (specClassify s) := by
  have expand : specClassify s =
      (if startsWithLit "###### " s then LineKind.h6
       else if startsWithLit "##### " s then LineKind.h5
       else if startsWithLit "#### " s then LineKind.h4
       else if startsWithLit "### " s then LineKind.h3
       else if startsWithLit "## " s then LineKind.h2
       else if startsWithLit "# " s then LineKind.h1
       else if hrPat s then LineKind.hr
       else if bqPat s then LineKind.bq
       else if ulPat s then LineKind.ul
       else if olPat s then LineKind.ol
       else if emptyPat s then LineKind.empty
       else LineKind.p) := rfl
  rw [expand, lineType]
  simp only [apply_ite kindCode]
  simp only [kindCode]

/-! ## Editor state: markdown source, history stacks, load -/

/-- The editor's history-relevant state: `_md`, `_undoStack` (oldest first;
the JS array's last element is the top), `_redoStack`. -/
structure EditorState where
  md : String
  undoStack : List String
  redoStack : List String
deriving DecidableEq, Repr

/-- The initial state after construction. -/
def initState : EditorState := ⟨"", [], []⟩

/-- `_pushUndo(state)`: skip when `state` is falsy (the empty string) or
equals the current top; otherwise push, evict the oldest entry when over
150, and clear the redo stack. -/
def pushUndo (st : EditorState) (state : String) : EditorState :=
  if state = "" ∨ st.undoStack.getLast? = some state then st
  else
    let u := st.undoStack ++ [state]
    { st with undoStack := if 150 < u.length then u.tail else u, redoStack := [] }

/-- The history effect of `_sync` producing a new canonical string `newMd`:
when it differs from the current one, push the old string and replace. -/
def syncMd (st : EditorState) (newMd : String) : EditorState :=
  if newMd ≠ st.md then { pushUndo st st.md with md := newMd } else st

/-- `_undo()`: no-op on an empty undo stack; otherwise push the current
string onto the redo stack and pop the undo stack into `_md`. -/
def undoOp (st : EditorState) : EditorState :=
  match st.undoStack.getLast? with
  | none => st
  | some lastU =>
    ⟨lastU, st.undoStack.dropLast, st.redoStack ++ [st.md]⟩

/-- `_redo()`: no-op on an empty redo stack; otherwise push the current
string onto the undo stack (unguarded) and pop the redo stack into `_md`. -/
def redoOp (st : EditorState) : EditorState :=
  match st.redoStack.getLast? with
  | none => st
  | some lastR =>
    ⟨lastR, st.undoStack ++ [st.md], st.redoStack.dropLast⟩

/-- History states reachable by snapshot pushes (edits), undos and redos. -/
inductive Reach : EditorState → Prop
  | init : Reach initState
  | sync (st : EditorState) (m : String) : Reach st → Reach (syncMd st m)
  | undo (st : EditorState) : Reach st → Reach (undoOp st)
  | redo (st : EditorState) : Reach st → Reach (redoOp st)

/-- `isHtml` of utils.js: the regex `/<[a-z][\s\S]*>/i` — somewhere in the
string, a `<` followed by an ASCII letter, with a `>` appearing later. -/
def isHtmlAux : List Char → Bool
  | [] => false
  | '<' :: c :: rest => (c.isAlpha && rest.contains '>') || isHtmlAux (c :: rest)
  | _ :: rest => isHtmlAux rest

/-- JS `isHtml`. -/
def isHtml (s : String) : Bool := isHtmlAux s.data

/-- Fueled global literal replacement, JS `s.replace(/pat/g, rep)` for a
literal pattern: leftmost, non-overlapping, continuing after each
replacement. -/
def replaceLitAux (pat rep : List Char) : Nat → List Char → List Char
  | _, [] => []
  | 0, l => l
  | fuel + 1, c :: cs =>
    if pat.isPrefixOf (c :: cs) then
      rep ++ replaceLitAux pat rep fuel ((c :: cs).drop pat.length)
    else c :: replaceLitAux pat rep fuel cs

/-- JS `s.replace(pat, rep)` with a literal pattern, global flag. -/
def replaceLit (pat rep s : String) : String :=
  String.mk (replaceLitAux pat.data rep.data s.data.length s.data)

/-- `loadValue`'s line-ending normalization:
`.replace(/\r\n/g, '\n').replace(/\r/g, '\n')`. -/
def normalizeNewlines (s : String) : String :=
  replaceLit "\r" "\n" (replaceLit "\r\n" "\n" s)

/-- `loadValue(value)`: pick the markdown source (empty for falsy input,
converted via `htmlToMarkdown` when `isHtml` detects markup tags, else the
input itself), normalize line endings, and store it as `_md` (the Document
is then redrawn from `_md`).  The `htmlToMarkdown` converter is DOM-based
and passed here as a function parameter.  Note: the history stacks are not
touched. -/
def loadValue (htmlToMd : String → String) (value : String) (st : EditorState) : EditorState :=
  { st with
    md := normalizeNewlines
      (if value = "" then "" else if isHtml value then htmlToMd value else value) }

/-! ## Claim C3: loadValue -/

/-- C3, counterexample: `loadValue` does NOT clear the History — loading
fresh content into a state with non-empty undo and redo stacks leaves both
stacks as they were, contradicting "clears the History (both undo and redo
stacks become empty)". -/
theorem C3_counterexample :
    ¬ ((loadValue (fun s => s) "new text" ⟨"old", ["u"], ["r"]⟩).undoStack = [] ∧
       (loadValue (fun s => s) "new text" ⟨"old", ["u"], ["r"]⟩).redoStack = []) := by
  decide

theorem no_cr_replaceLitAux (fuel : Nat) (l : List Char) (h : l.length ≤ fuel) :
    '\r' ∉ replaceLitAux ['\r'] ['\n'] fuel l := by
  induction fuel generalizing l with
  | zero =>
    cases l with
    | nil => simp [replaceLitAux]
    | cons c cs => simp at h
  | succ f ih =>
    cases l with
    | nil => simp [replaceLitAux]
    | cons c cs =>
      simp only [replaceLitAux]
      by_cases hp : ['\r'].isPrefixOf (c :: cs)
      · have hc : c = '\r' := by
          simp [List.isPrefixOf] at hp
          exact hp.symm
        subst hc
        rw [if_pos hp]
        intro hm
        rcases List.mem_append.mp hm with h1 | h2
        · simp at h1
        · exact ih _ (by simpa using Nat.le_of_succ_le_succ h) (by simpa using h2)
      · rw [if_neg hp]
        intro hm
        rcases List.mem_cons.mp hm with h1 | h2
        · apply hp
          rw [← h1]
          simp [List.isPrefixOf]
        · exact ih _ (by simpa using Nat.le_of_succ_le_succ h) h2

/-- The normalized string contains no carriage return. -/
theorem no_cr_normalizeNewlines (s : String) : '\r' ∉ (normalizeNewlines s).data :=
  no_cr_replaceLitAux _ _ (le_refl _)

/-- C3 (amended): `loadValue` auto-detects rich markup via `isHtml`
(presence of markup tags), normalizes all line endings (the result contains
no carriage return), and replaces the markdown source the Document is drawn
from — but it leaves the History untouched: both stacks keep their previous
contents (they are NOT cleared). -/
theorem C3_loadValue_amended (conv : String → String) (value : String) (st : EditorState) :
    (loadValue conv value st).md
        = normalizeNewlines
            (if value = "" then "" else if isHtml value then conv value else value) ∧
    '\r' ∉ (loadValue conv value st).md.data ∧
    (loadValue conv value st).undoStack = st.undoStack ∧
    (loadValue conv value st).redoStack = st.redoStack :=
  ⟨rfl, no_cr_normalizeNewlines _, rfl, rfl⟩

/-! ## Claim C4: redo invalidation -/

/-- C4: in any reachable history state, after an undo (from a non-empty
undo stack), a new edit whose snapshot push is actually performed (the
pushed snapshot is neither falsy nor equal to the top of the undo stack —
"pushes a snapshot not coming from an undo/redo operation") leaves the redo
stack empty. -/
theorem C4_redo_invalidation (st : EditorState) (m : String)
    (hreach : Reach st) (hundo : st.undoStack ≠ [])
    (hedit : m ≠ (undoOp st).md)
    (hpush1 : (undoOp st).md ≠ "")
    (hpush2 : (undoOp st).undoStack.getLast? ≠ some (undoOp st).md) :
    (syncMd (undoOp st) m).redoStack = [] := by
  rw [syncMd, if_pos hedit]
  show (pushUndo (undoOp st) (undoOp st).md).redoStack = []
  rw [pushUndo, if_neg (by
    intro hor
    rcases hor with h1 | h2
    · exact hpush1 h1
    · exact hpush2 h2)]

/-- Witness for C4 at the concrete reachable state obtained by editing to
"a", then "b", then undoing and editing to "c". -/
theorem C4_redo_invalidation_witness :
    (syncMd (undoOp (syncMd (syncMd initState "a") "b")) "c").redoStack = [] :=
  C4_redo_invalidation _ "c"
    (Reach.sync _ "b" (Reach.sync _ "a" Reach.init))
    (by decide) (by decide) (by decide) (by decide)

/-! ## Claim C5: the 150-entry history bound -/

/-- Push a sequence of snapshots in order. -/
def pushAll (st : EditorState) (l : List String) : EditorState :=
  l.foldl pushUndo st

theorem getLast?_drop_of_lt {α : Type} (l : List α) (k : Nat) (h : k < l.length) :
    (l.drop k).getLast? = l.getLast? := by
  induction k generalizing l with
  | zero => rfl
  | succ n ih =>
    cases l with
    | nil => simp at h
    | cons x xs =>
      rw [List.drop_succ_cons]
      cases xs with
      | nil => simp at h
      | cons y ys =>
        rw [List.getLast?_cons_cons]
        exact ih _ (by simpa using Nat.lt_of_succ_lt_succ h)

theorem tail_append_single {α : Type} (A : List α) (s : α) (h : A ≠ []) :
    (A ++ [s]).tail = A.tail ++ [s] := by
  cases A with
  | nil => exact absurd rfl h
  | cons a as => rfl

/-- Folding guarded pushes over a chain of distinct non-empty snapshots
keeps exactly the 150 most recent of everything pushed so far (`pre` is the
already-pushed history, the stack holding its most recent 150). -/
theorem pushAll_undoStack (l : List String) :
    ∀ (pre : List String) (st : EditorState),
      st.undoStack = pre.drop (pre.length - 150) →
      "" ∉ l →
      List.Chain' (· ≠ ·) (pre ++ l) →
      (pushAll st l).undoStack = (pre ++ l).drop ((pre ++ l).length - 150) := by
  induction l with
  | nil =>
    intro pre st hst _ _
    simpa using hst
  | cons s rest ih =>
    intro pre st hst hne hch
    have hs_ne : s ≠ "" := fun hh => hne (hh ▸ List.mem_cons_self s rest)
    have hguard : st.undoStack.getLast? ≠ some s := by
      rw [hst]
      by_cases hpre : pre = []
      · subst hpre
        simp
      · have hlt : pre.length - 150 < pre.length := by
          have : 0 < pre.length := List.length_pos.mpr hpre
          omega
        rw [getLast?_drop_of_lt pre _ hlt]
        obtain ⟨-, -, hlast⟩ := List.chain'_append.mp hch
        intro hc
        exact hlast s (by rw [Option.mem_def]; exact hc) s (by rw [Option.mem_def]; rfl) rfl
    have hstack : (pushUndo st s).undoStack
        = (pre ++ [s]).drop ((pre ++ [s]).length - 150) := by
      rw [pushUndo, if_neg (by
        intro hor
        rcases hor with h1 | h2
        · exact hs_ne h1
        · exact hguard h2)]
      show (if 150 < (st.undoStack ++ [s]).length then (st.undoStack ++ [s]).tail
          else st.undoStack ++ [s]) = _
      rw [hst]
      by_cases hbig : 150 ≤ pre.length
      · have hdlen : (pre.drop (pre.length - 150)).length = 150 := by
          rw [List.length_drop]
          omega
        rw [if_pos (by
          rw [List.length_append, hdlen]
          simp)]
        have hA : pre.drop (pre.length - 150) ≠ [] := by
          intro hh
          have := congrArg List.length hh
          rw [hdlen] at this
          simp at this
        rw [tail_append_single _ _ hA, List.tail_drop]
        have hidx : (pre ++ [s]).length - 150 = (pre.length - 150) + 1 := by
          simp only [List.length_append, List.length_singleton]
          omega
        rw [hidx, List.drop_append_of_le_length (by omega)]
      · have h0 : pre.length - 150 = 0 := by omega
        rw [h0, List.drop_zero]
        rw [if_neg (by
          rw [List.length_append]
          simp
          omega)]
        have h1 : (pre ++ [s]).length - 150 = 0 := by
          rw [List.length_append]
          simp
          omega
        rw [h1, List.drop_zero]
    have hmain := ih (pre ++ [s]) (pushUndo st s) hstack
      (fun hh => hne (List.mem_cons_of_mem _ hh))
      (by rw [List.append_assoc, List.singleton_append]; exact hch)
    show (pushAll (pushUndo st s) rest).undoStack = _
    rw [hmain, List.append_assoc, List.singleton_append]

/-- C5, counterexample material: powers of 'b' as distinct non-empty
snapshots. -/
def bRun (n : Nat) : String := String.mk (List.replicate (n + 1) 'b')

theorem bRun_injective : Function.Injective bRun := by
  intro m n h
  have hd : List.replicate (m + 1) 'b' = List.replicate (n + 1) 'b' := congrArg String.data h
  have := congrArg List.length hd
  simpa using this

theorem bRun_ne_empty (n : Nat) : bRun n ≠ "" := by
  intro h
  have := congrArg String.length h
  simp [bRun] at this

theorem bRun_ne_a (n : Nat) : bRun n ≠ "a" := by
  intro h
  have hd : List.replicate (n + 1) 'b' = ['a'] := congrArg String.data h
  have hlen := congrArg List.length hd
  simp at hlen
  rw [hlen] at hd
  simp at hd

/-- The list `[bRun 0, …, bRun (k-1)]`. -/
def genB (k : Nat) : List String := (List.range k).map bRun

theorem genB_nodup (k : Nat) : (genB k).Nodup :=
  (List.nodup_range k).map bRun_injective

theorem empty_not_mem_genB (k : Nat) : "" ∉ genB k := by
  intro h
  obtain ⟨n, -, hn⟩ := List.mem_map.mp h
  exact bRun_ne_empty n hn

theorem a_not_mem_genB (k : Nat) : "a" ∉ genB k := by
  intro h
  obtain ⟨n, -, hn⟩ := List.mem_map.mp h
  exact bRun_ne_a n hn

theorem genB_length (k : Nat) : (genB k).length = k := by simp [genB]

/-- C5 (amended): pushing 151 distinct NON-EMPTY snapshots onto an empty
history leaves the undo stack holding exactly the 150 most recent in
oldest-first order; the first snapshot is evicted. -/
theorem C5_history_bound_amended (l : List String) (hlen : l.length = 151)
    (hnd : l.Nodup) (hne : "" ∉ l) :
    (pushAll initState l).undoStack = l.drop 1 ∧
    (pushAll initState l).undoStack.length = 150 := by
  have hchain : List.Chain' (· ≠ ·) l := List.Pairwise.chain' hnd
  have hmain := pushAll_undoStack l [] initState rfl hne (by simpa using hchain)
  rw [List.nil_append] at hmain
  rw [hmain, hlen]
  constructor
  · rfl
  · rw [List.length_drop, hlen]

/-- Witness for C5 (amended) at 151 concrete distinct snapshots. -/
theorem C5_history_bound_amended_witness :
    ((genB 151).length = 151 ∧ (genB 151).Nodup ∧ "" ∉ genB 151) ∧
    (pushAll initState (genB 151)).undoStack = (genB 151).drop 1 ∧
    (pushAll initState (genB 151)).undoStack.length = 150 :=
  ⟨⟨genB_length 151, genB_nodup 151, empty_not_mem_genB 151⟩,
    C5_history_bound_amended (genB 151) (genB_length 151) (genB_nodup 151)
      (empty_not_mem_genB 151)⟩

/-- C5, counterexample: the claim fails as stated when one of the 151
distinct snapshots is the empty string (a legitimate canonical string): the
empty snapshot is silently skipped rather than stored, so the stack ends up
holding the very first snapshot "a" instead of the 150 most recent. -/
theorem C5_counterexample :
    (("a" :: "" :: genB 149).length = 151 ∧ ("a" :: "" :: genB 149).Nodup) ∧
    (pushAll initState ("a" :: "" :: genB 149)).undoStack
      ≠ ("a" :: "" :: genB 149).drop 1 := by
  constructor
  · constructor
    · rw [List.length_cons, List.length_cons, genB_length]
    · rw [List.nodup_cons, List.nodup_cons]
      refine ⟨?_, ?_, genB_nodup 149⟩
      · intro h
        rcases List.mem_cons.mp h with h1 | h2
        · exact absurd h1 (by decide)
        · exact a_not_mem_genB 149 h2
      · exact empty_not_mem_genB 149
  · have h1 : pushUndo initState "a" = ⟨"", ["a"], []⟩ := by decide
    have h2 : pushUndo ⟨"", ["a"], []⟩ "" = ⟨"", ["a"], []⟩ := by decide
    have hstep : pushAll initState ("a" :: "" :: genB 149)
        = pushAll ⟨"", ["a"], []⟩ (genB 149) := by
      simp only [pushAll, List.foldl_cons, h1, h2]
    have hchain : List.Chain' (· ≠ ·) (["a"] ++ genB 149) := by
      apply List.Pairwise.chain'
      rw [List.singleton_append]
      exact List.nodup_cons.mpr ⟨a_not_mem_genB 149, genB_nodup 149⟩
    have hmain := pushAll_undoStack (genB 149) ["a"] ⟨"", ["a"], []⟩ rfl
      (empty_not_mem_genB 149) hchain
    have hlen : (["a"] ++ genB 149).length - 150 = 0 := by
      rw [List.length_append, genB_length, List.length_singleton]
    rw [hlen, List.drop_zero, List.singleton_append] at hmain
    rw [hstep, hmain]
    intro hc
    have := (List.cons.inj hc).1
    exact absurd this (by decide)

/-! ## Claim C10: the push guard and its consequences -/

theorem pushUndo_inv (st : EditorState) (s : String)
    (h1 : "" ∉ st.undoStack) (h2 : List.Chain' (· ≠ ·) st.undoStack) :
    "" ∉ (pushUndo st s).undoStack ∧ List.Chain' (· ≠ ·) (pushUndo st s).undoStack := by
  rw [pushUndo]
  by_cases hg : s = "" ∨ st.undoStack.getLast? = some s
  · rw [if_pos hg]
    exact ⟨h1, h2⟩
  · rw [if_neg hg]
    push_neg at hg
    obtain ⟨hs, htop⟩ := hg
    have hmem : "" ∉ st.undoStack ++ [s] := by
      intro hm
      rcases List.mem_append.mp hm with h | h
      · exact h1 h
      · rw [List.mem_singleton] at h
        exact hs h.symm
    have hch : List.Chain' (· ≠ ·) (st.undoStack ++ [s]) := by
      rw [List.chain'_append]
      refine ⟨h2, List.chain'_singleton s, ?_⟩
      intro x hx y hy
      rw [Option.mem_def] at hx
      rw [List.head?_cons, Option.mem_def, Option.some.injEq] at hy
      subst hy
      intro hxy
      subst hxy
      exact htop hx
    constructor
    · show "" ∉ (if 150 < (st.undoStack ++ [s]).length
          then (st.undoStack ++ [s]).tail else st.undoStack ++ [s])
      split
      · exact fun hm => hmem (List.mem_of_mem_tail hm)
      · exact hmem
    · show List.Chain' (· ≠ ·) (if 150 < (st.undoStack ++ [s]).length
          then (st.undoStack ++ [s]).tail else st.undoStack ++ [s])
      split
      · exact hch.tail
      · exact hch

theorem pushAll_inv (l : List String) :
    ∀ st : EditorState, "" ∉ st.undoStack → List.Chain' (· ≠ ·) st.undoStack →
      "" ∉ (pushAll st l).undoStack ∧ List.Chain' (· ≠ ·) (pushAll st l).undoStack := by
  induction l with
  | nil => exact fun st h1 h2 => ⟨h1, h2⟩
  | cons s rest ih =>
    intro st h1 h2
    have hstep := pushUndo_inv st s h1 h2
    exact ih (pushUndo st s) hstep.1 hstep.2

/-- C10 (amended): `_pushUndo` never stores the empty string and never
stores a snapshot equal to the current top — in both cases the push is
silently skipped, leaving the whole state (in particular the redo stack)
unchanged.  Consequently any sequence of pushes alone preserves the
invariant that the undo stack holds no empty entry and no two adjacent
equal entries.  (The system-wide invariant fails, however: `_redo` and
`loadValue` bypass the guard — see the counterexample.) -/
theorem C10_push_guard :
    (∀ st : EditorState, pushUndo st "" = st) ∧
    (∀ (st : EditorState) (s : String), st.undoStack.getLast? = some s →
      pushUndo st s = st) ∧
    (∀ (st : EditorState) (l : List String), "" ∉ st.undoStack →
      List.Chain' (· ≠ ·) st.undoStack →
      "" ∉ (pushAll st l).undoStack ∧ List.Chain' (· ≠ ·) (pushAll st l).undoStack) :=
  ⟨fun st => by rw [pushUndo, if_pos (Or.inl rfl)],
   fun st s h => by rw [pushUndo, if_pos (Or.inr h)],
   fun st l h1 h2 => pushAll_inv l st h1 h2⟩

/-- Witness for C10 (amended): a skipped top-equal push leaves the state
(redo stack included) unchanged, and concrete pushes keep the invariant. -/
theorem C10_push_guard_witness :
    pushUndo ⟨"x", ["a"], ["r"]⟩ "a" = ⟨"x", ["a"], ["r"]⟩ ∧
    ("" ∉ (pushAll ⟨"x", ["a"], ["r"]⟩ ["b", "b", ""]).undoStack ∧
      List.Chain' (· ≠ ·) (pushAll ⟨"x", ["a"], ["r"]⟩ ["b", "b", ""]).undoStack) :=
  ⟨C10_push_guard.2.1 ⟨"x", ["a"], ["r"]⟩ "a" (by decide),
   C10_push_guard.2.2 ⟨"x", ["a"], ["r"]⟩ ["b", "b", ""] (by decide)
     (List.chain'_singleton "a")⟩

/-- C10, counterexample to the "consequently" part as a system invariant:
`_redo` pushes onto the undo stack without the guard and `loadValue`
replaces `_md` without touching the stacks, so after
edit "a", edit "b", undo, loadValue "", redo
the undo stack holds exactly the empty string, and a further undo restores
the initial empty document. -/
theorem C10_counterexample :
    (redoOp (loadValue (fun s => s) ""
        (undoOp (syncMd (syncMd initState "a") "b")))).undoStack = [""] ∧
    (undoOp (redoOp (loadValue (fun s => s) ""
        (undoOp (syncMd (syncMd initState "a") "b"))))).md = "" := by decide

/-! ## Claim C6: the inline renderer `inlineRender`

Each JS `String.replace(regex, template)` with the global flag is embedded
as a left-to-right scan with the same matching semantics: single-character
replacement (`esc`), delimiter + excluded-character-class content +
delimiter (inline code, `*`/`_` italics), literal + lazy any-but-newline
content + literal (`***`, `**`, `__`, `~~`), and the bracket/paren image
and link patterns.  The passes are fueled by the input length (each step
consumes at least one character), keeping every definition structurally
recursive and kernel-computable. -/

/-- Global single-character replacement, JS `s.replace(/c/g, r)`. -/
def replAll (c : Char) (r : List Char) : List Char → List Char
  | [] => []
  | x :: xs => if x = c then r ++ replAll c r xs else x :: replAll c r xs

/-- `esc`: `&` then `<` then `>` replaced by their entities, sequentially. -/
def escData (l : List Char) : List Char :=
  replAll '>' "&gt;".data (replAll '<' "&lt;".data (replAll '&' "&amp;".data l))

/-- One global pass of `mark CONTENT mark` where CONTENT is one-or-more
characters excluding the mark and newline (the shapes of the inline-code
and single-`*`/`_` italic regexes). -/
def classPass (mark : Char) (pre post : List Char) : Nat → List Char → List Char
  | 0, l => l
  | _ + 1, [] => []
  | fuel + 1, c :: cs =>
    if c = mark then
      let t := cs.takeWhile fun x => !(x == mark) && !(x == '\n')
      let rest := cs.drop t.length
      if (!t.isEmpty) && (rest.head? == some mark) then
        pre ++ t ++ post ++ classPass mark pre post fuel rest.tail
      else c :: classPass mark pre post fuel cs
    else c :: classPass mark pre post fuel cs

/-- Lazy search for `(.+?)lit`: consume characters (no newline) one at a
time, stopping at the first point where `lit` follows a non-empty content. -/
def lazyFindAux (lit : List Char) : Nat → List Char → List Char → Option (List Char × List Char)
  | 0, _, _ => none
  | fuel + 1, acc, s =>
    match s with
    | [] => none
    | c :: cs =>
      if c = '\n' then none
      else if lit.isPrefixOf cs then some (acc ++ [c], cs.drop lit.length)
      else lazyFindAux lit fuel (acc ++ [c]) cs

/-- One global pass of `lit(.+?)lit` (the `***`, `**`, `__`, `~~` shapes). -/
def lazyPass (lit pre post : List Char) : Nat → List Char → List Char
  | 0, l => l
  | _ + 1, [] => []
  | fuel + 1, c :: cs =>
    if lit.isPrefixOf (c :: cs) then
      match lazyFindAux lit (cs.length + 1) [] ((c :: cs).drop lit.length) with
      | some (content, rest) => pre ++ content ++ post ++ lazyPass lit pre post fuel rest
      | none => c :: lazyPass lit pre post fuel cs
    else c :: lazyPass lit pre post fuel cs

/-- Parse `TEXT](URL)` after an opening bracket: TEXT is any run without
`]` (required non-empty unless `allowEmptyText`), URL any non-empty run
without `)`. -/
def bracketParen (allowEmptyText : Bool) (s : List Char) :
    Option (List Char × List Char × List Char) :=
  let t := s.takeWhile fun x => !(x == ']')
  match s.drop t.length with
  | ']' :: '(' :: r2 =>
    let u := r2.takeWhile fun x => !(x == ')')
    match r2.drop u.length with
    | ')' :: r4 =>
      if (allowEmptyText || !t.isEmpty) && !u.isEmpty then some (t, u, r4) else none
    | _ => none
  | _ => none

/-- One global pass of the image regex `!\[([^\]]*)\]\(([^)]+)\)`. -/
def imgPass : Nat → List Char → List Char
  | 0, l => l
  | _ + 1, [] => []
  | fuel + 1, c :: cs =>
    if c = '!' then
      match cs with
      | '[' :: cs2 =>
        match bracketParen true cs2 with
        | some (alt, src, rest) =>
          "<img src=\"".data ++ src ++ "\" alt=\"".data ++ alt
            ++ "\" loading=\"lazy\">".data ++ imgPass fuel rest
        | none => c :: imgPass fuel cs
      | _ => c :: imgPass fuel cs
    else c :: imgPass fuel cs

/-- One global pass of the link regex `\[([^\]]+)\]\(([^)]+)\)`. -/
def linkPass : Nat → List Char → List Char
  | 0, l => l
  | _ + 1, [] => []
  | fuel + 1, c :: cs =>
    if c = '[' then
      match bracketParen false cs with
      | some (txt, url, rest) =>
        "<a href=\"".data ++ url ++ "\" target=\"_blank\" rel=\"noopener\">".data
          ++ txt ++ "</a>".data ++ linkPass fuel rest
      | none => c :: linkPass fuel cs
    else c :: linkPass fuel cs

/-- `inlineRender`: escape, then the fixed substitution order of the
source — inline code, bold+italic, bold (`**` then `__`), italic (`*` then
`_`), strikethrough, images, links. -/
def inlineRender (raw : String) : String :=
  let s0 := escData raw.data
  let s1 := classPass btk "<span class=\"ic\">".data "</span>".data s0.length s0
  let s2 := lazyPass "***".data "<strong><em>".data "</em></strong>".data s1.length s1
  let s3 := lazyPass "**".data "<strong>".data "</strong>".data s2.length s2
  let s4 := lazyPass "__".data "<strong>".data "</strong>".data s3.length s3
  let s5 := classPass '*' "<em>".data "</em>".data s4.length s4
  let s6 := classPass '_' "<em>".data "</em>".data s5.length s5
  let s7 := lazyPass "~~".data "<del>".data "</del>".data s6.length s6
  let s8 := imgPass s7.length s7
  let s9 := linkPass s8.length s8
  String.mk s9

/-- Whether `pat` occurs as a contiguous subsequence. -/
def containsSeq (pat : List Char) : List Char → Bool
  | [] => pat.isEmpty
  | c :: cs => pat.isPrefixOf (c :: cs) || containsSeq pat cs

/-- C6, counterexample: an asterisk inside an inline-code span IS treated
as an emphasis marker — the code-span substitution leaves the asterisk in
place, and the later italic pass pairs it with an asterisk outside the
span, so the span's content "x*y" is torn apart by an `<em>`. -/
theorem C6_counterexample :
    inlineRender "`x*y` *z*" = "<span class=\"ic\">x<em>y</span> </em>z*" ∧
    containsSeq "x*y".data (inlineRender "`x*y` *z*").data = false := by decide

/-- C6 (amended): the renderer escapes markup-unsafe characters first and
applies the substitutions in the fixed order inline code, bold+italic,
bold, italic, strikethrough, images, links — but the ordering does NOT
prevent re-matching inside an already-substituted span's output: an
asterisk pair inside an inline-code span is still emphasized.  Concrete
behavior at representative inputs: escaping first; triple marker as
bold+italic (not bold-then-italic); bold/italic/strike/image/link
substitutions; and emphasis re-matching inside a code span's output. -/
theorem C6_inline_order_amended :
    inlineRender "<b>" = "&lt;b&gt;" ∧
    inlineRender "***x***" = "<strong><em>x</em></strong>" ∧
    inlineRender "**b** and *i*" = "<strong>b</strong> and <em>i</em>" ∧
    inlineRender "~~s~~ `c`" = "<del>s</del> <span class=\"ic\">c</span>" ∧
    inlineRender "![a](u) [t](v)"
      = "<img src=\"u\" alt=\"a\" loading=\"lazy\"> <a href=\"v\" target=\"_blank\" rel=\"noopener\">t</a>" ∧
    inlineRender "`a*b*c`" = "<span class=\"ic\">a<em>b</em>c</span>" := by decide

/-! ## Claim C8: the focus / blur state machine

The live surface is modelled as a list of DOM-ish nodes carrying the data
attributes (`data-cb`, `data-md`, `data-lang`, `data-code`), the CSS
classes the code queries (`ln`, `cb`, `is-ed`), and the element's text
content while in raw-edit mode.  `editLine` sets `className = 'ln is-ed'`
(NOTE: replacing any previous classes, including `cb`) and the text;
`renderLine` sets `className = 'ln <kind>'`; `_blurLine` is a no-op on a
node with `dataset.cb`. -/

structure Node where
  dataCb : Bool
  dataMd : String
  dataLang : String
  dataCode : String
  clsLn : Bool
  clsCb : Bool
  clsEd : Bool
  textC : String
deriving DecidableEq, Repr

/-- `_makeLine(text)`: a rendered text line with `dataset.md = text`. -/
def makeLine (t : String) : Node := ⟨false, t, "", "", true, false, false, t⟩

/-- `makeCodeBlock(lang, code)`: class `cb`, `dataset.cb = '1'`. -/
def makeCodeBlockNode (lang code : String) : Node :=
  ⟨true, "", lang, code, false, true, false, code⟩

/-- `editLine(el, text)`: `className = 'ln is-ed'`, `textContent = text`. -/
def editLineF (n : Node) (t : String) : Node :=
  { n with clsLn := true, clsCb := false, clsEd := true, textC := t }

/-- `_blurLine(el)`: no-op for `dataset.cb` nodes; otherwise commit
`textContent` into `dataset.md` and re-render (`className = 'ln <kind>'`). -/
def blurLineF (n : Node) : Node :=
  if n.dataCb then n
  else { n with dataMd := n.textC, clsLn := true, clsCb := false, clsEd := false }

/-- `querySelector('.ln.is-ed')`. -/
def isLnEd (n : Node) : Bool := n.clsLn && n.clsEd

/-- `querySelector('.is-ed')`. -/
def isEdAny (n : Node) : Bool := n.clsEd

def setAt (f : Node → Node) : Nat → List Node → List Node
  | _, [] => []
  | 0, n :: rest => f n :: rest
  | i + 1, n :: rest => n :: setAt f i rest

def removeAt : Nat → List Node → List Node
  | _, [] => []
  | 0, _ :: rest => rest
  | i + 1, n :: rest => n :: removeAt i rest

def blurAt (d : List Node) (i : Nat) : List Node := setAt blurLineF i d

/-- `_prevLine(el)`: nearest previous sibling with class `ln` or
`dataset.cb`. -/
def prevIdx? (d : List Node) (i : Nat) : Option Nat :=
  (List.range i).reverse.find? fun j =>
    match d[j]? with
    | some m => m.clsLn || m.dataCb
    | none => false

/-- `_focusLine(el)`: code blocks focus their textarea (no class changes);
for a text line, blur the first `.ln.is-ed` element if it is a different
one, then switch the target to raw-edit mode showing `dataset.md`. -/
def focusLineF (d : List Node) (i : Nat) : List Node :=
  match d[i]? with
  | none => d
  | some n =>
    if n.dataCb then d
    else
      let d' := match d.findIdx? isLnEd with
        | some j => if j ≠ i then blurAt d j else d
        | none => d
      setAt (fun m => editLineF m m.dataMd) i d'

/-- `_onClick` on node `i`: clicks inside `.cb` are handled internally;
a rendered `.ln` gets focused. -/
def clickOp (d : List Node) (i : Nat) : List Node :=
  match d[i]? with
  | none => d
  | some n =>
    if n.clsCb then d
    else if n.clsLn && !n.clsEd then focusLineF d i
    else d

/-- Backspace at the start of an empty focused line: remove it, blur any
remaining `.is-ed` element, and put the previous line (or code block!) into
edit mode via `editLine(prev, prev.dataset.md || '')`. -/
def backspaceEmptyOp (d : List Node) : List Node :=
  match d.findIdx? isLnEd with
  | none => d
  | some j =>
    match d[j]? with
    | none => d
    | some foc =>
      if foc.textC ≠ "" then d
      else
        let prev? := prevIdx? d j
        let d' := removeAt j d
        match prev? with
        | none => d'
        | some k =>
          let d'' := match d'.findIdx? isEdAny with
            | some m => blurAt d' m
            | none => d'
          setAt (fun m => editLineF m m.dataMd) k d''

/-- Backspace at the start of a non-empty focused line: merge into the
previous line unless it is a code block. -/
def backspaceMergeOp (d : List Node) : List Node :=
  match d.findIdx? isLnEd with
  | none => d
  | some j =>
    match d[j]? with
    | none => d
    | some foc =>
      if foc.textC = "" then d
      else
        match prevIdx? d j with
        | none => d
        | some k =>
          match d[k]? with
          | none => d
          | some prev =>
            if prev.dataCb then d
            else
              let merged := prev.dataMd ++ foc.textC
              let d' := removeAt j d
              setAt (fun m => { editLineF m merged with dataMd := merged }) k d'

/-- Escape: blur the focused line. -/
def escapeOp (d : List Node) : List Node :=
  match d.findIdx? isLnEd with
  | none => d
  | some j => blurAt d j

/-- Number of TextLines (non-code-block nodes) currently in Editing state. -/
def editingTextCount (d : List Node) : Nat :=
  d.countP fun n => !n.dataCb && n.clsEd

/-- A document: a code block followed by an empty line and two text lines. -/
def demoDoc : List Node :=
  [makeCodeBlockNode "js" "x", makeLine "", makeLine "a", makeLine "b"]

/-- C8: evaluation of the focus model at the failing input.  Focus the
empty line after the code block, press Backspace (the empty-line-delete
path calls `editLine` on the code-block wrapper, marking it `ln is-ed`
while `dataset.cb` keeps `_blurLine` from ever clearing it), then click
line "a" and line "b": each click blurs only the corrupted code-block
node — the FIRST `.ln.is-ed` in document order — so both "a" and "b" end
up in Editing state simultaneously, violating the single-active-editor
invariant. -/
theorem C8_two_editors_eval :
    editingTextCount (clickOp (clickOp (backspaceEmptyOp (clickOp demoDoc 1)) 1) 2) = 2
      ∧ editingTextCount demoDoc = 0
      ∧ editingTextCount (clickOp demoDoc 1) = 1
      ∧ editingTextCount (backspaceEmptyOp (clickOp demoDoc 1)) = 0
      ∧ editingTextCount (clickOp (backspaceEmptyOp (clickOp demoDoc 1)) 1) = 1 := by
  decide

end MdEditor
